import Mathlib

/-!
Verification of `pkg/utils/common/finalizer.go` from liggitt/ingress-gce.

The file embeds the finalizer predicates and the ensure-present / ensure-absent
mutation operations as pure Lean functions.  Go pointers and the external
resource store are made explicit:

* a resource object is a value; `DeepCopy` is the identity on values (its
  aliasing content is treated separately by a small heap model below);
* each mutating operation returns, besides its Go results, the list of patch
  calls it submitted to the store, so that "number of store writes" is a
  plain function of the inputs;
* the store's reply to the (at most one) patch submission is a parameter
  `storeErr : Option String` (`none` = accepted, `some e` = rejected with
  error text `e`).

Only the fields of `ObjectMeta`, `Ingress` and `Service` that the finalizer
code reads or writes are modelled.
-/

namespace IngressGCE

/-- Subset of `meta_v1.ObjectMeta` used by the finalizer code: namespace,
name, deletion timestamp (an opaque nullable instant, modelled as
`Option Nat`) and the ordered finalizer list. -/
structure ObjectMeta where
  Namespace : String
  Name : String
  DeletionTimestamp : Option Nat
  Finalizers : List String
deriving DecidableEq, Inhabited

/-- An Ingress-like resource; the finalizer code touches only its metadata. -/
structure Ingress where
  ObjectMeta : ObjectMeta
deriving DecidableEq, Inhabited

/-- A Service-like resource; the finalizer code touches only its metadata. -/
structure Service where
  ObjectMeta : ObjectMeta
deriving DecidableEq, Inhabited

/-- `FinalizerKey` is the string representing the Ingress finalizer. -/
def FinalizerKey : String := "networking.gke.io/ingress-finalizer"

/-- `FinalizerKeyV2` is the string representing the Ingress finalizer version. -/
def FinalizerKeyV2 : String := "networking.gke.io/ingress-finalizer-V2"

/-- `LegacyILBFinalizer` identifies ILB services managed by the service controller. -/
def LegacyILBFinalizer : String := "gke.networking.io/l4-ilb-v1"

/-- `ILBFinalizerV2` is the finalizer used by newer ILB controllers. -/
def ILBFinalizerV2 : String := "gke.networking.io/l4-ilb-v2"

/-- `NegFinalizerKey` is the finalizer used by the neg controller. -/
def NegFinalizerKey : String := "networking.gke.io/neg-finalizer"

/-- `k8s.io/kubernetes/pkg/util/slice.ContainsString` with a nil modifier:
true iff `s` occurs in `slice` (exact string equality). -/
def ContainsString (slice : List String) (s : String) : Bool :=
  slice.contains s

/-- `k8s.io/kubernetes/pkg/util/slice.RemoveString` with a nil modifier:
a new slice keeping exactly the items different from `s` (all occurrences
of `s` are dropped). -/
def RemoveString (slice : List String) (s : String) : List String :=
  slice.filter (fun item => item ≠ s)

/-- `HasGivenFinalizer` is true if the passed in meta has the specified finalizer. -/
def HasGivenFinalizer (m : ObjectMeta) (key : String) : Bool :=
  ContainsString m.Finalizers key

/-- `IsDeletionCandidateForGivenFinalizer` is true if the passed in meta contains
the specified finalizer and its deletion timestamp is set. -/
def IsDeletionCandidateForGivenFinalizer (m : ObjectMeta) (key : String) : Bool :=
  m.DeletionTimestamp.isSome && HasGivenFinalizer m key

/-- `IsDeletionCandidate` is true if the passed in meta contains an ingress finalizer
and its deletion timestamp is set. -/
def IsDeletionCandidate (m : ObjectMeta) : Bool :=
  IsDeletionCandidateForGivenFinalizer m FinalizerKey ||
    IsDeletionCandidateForGivenFinalizer m FinalizerKeyV2

/-- `HasFinalizer` is true if the passed in meta has an ingress finalizer. -/
def HasFinalizer (m : ObjectMeta) : Bool :=
  HasGivenFinalizer m FinalizerKey || HasGivenFinalizer m FinalizerKeyV2

/-- `needToAddFinalizer` is true if the passed in meta does not contain the
specified finalizer and its deletion timestamp is unset. -/
def needToAddFinalizer (m : ObjectMeta) (key : String) : Bool :=
  m.DeletionTimestamp.isNone && !HasGivenFinalizer m key

/-- One patch submission on the Ingress path: the unmodified original object
and the desired new metadata. -/
structure IngressPatchCall where
  old : Ingress
  newMeta : ObjectMeta
deriving DecidableEq, Inhabited

/-- Modelled from the spec: `PatchIngressObjectMetadata` lives elsewhere in the
repository (only its caller is among the given sources).  Per the spec's Patch
Layer, it serializes the original object and the desired metadata, computes a
two-way merge patch, and submits that single patch to the store as a
conditional partial write scoped to the metadata; the store returns the
updated object or rejects the write with an error.  The store's reply is the
parameter `storeErr`; the submitted patch is recorded as an
`IngressPatchCall`. -/
def PatchIngressObjectMetadata (storeErr : Option String) (ing : Ingress)
    (newMeta : ObjectMeta) : Except String Ingress × List IngressPatchCall :=
  match storeErr with
  | some e => (Except.error e, [{ old := ing, newMeta := newMeta }])
  | none => (Except.ok { ing with ObjectMeta := newMeta }, [{ old := ing, newMeta := newMeta }])

/-- `EnsureFinalizer` ensures that the specified finalizer exists on the given
Ingress.  Returns the Go results `(updated Ingress or error)` paired with the
list of patch calls submitted to the store. -/
def EnsureFinalizer (ing : Ingress) (storeErr : Option String) (finalizerKey : String) :
    Except String Ingress × List IngressPatchCall :=
  let updated := ing
  if needToAddFinalizer ing.ObjectMeta finalizerKey then
    let updated := { updated with ObjectMeta :=
      { updated.ObjectMeta with Finalizers := updated.ObjectMeta.Finalizers ++ [finalizerKey] } }
    match PatchIngressObjectMetadata storeErr ing updated.ObjectMeta with
    | (Except.error err, calls) =>
        (Except.error ("error patching Ingress " ++ ing.ObjectMeta.Namespace ++ "/" ++
          ing.ObjectMeta.Name ++ ": " ++ err), calls)
    | (Except.ok _, calls) => (Except.ok updated, calls)
  else
    (Except.ok updated, [])

/-- `EnsureDeleteFinalizer` ensures that the specified finalizer is deleted from
the given Ingress.  Returns the Go result (error or success) paired with the
list of patch calls submitted to the store. -/
def EnsureDeleteFinalizer (ing : Ingress) (storeErr : Option String) (finalizerKey : String) :
    Except String Unit × List IngressPatchCall :=
  if HasGivenFinalizer ing.ObjectMeta finalizerKey then
    let updatedObjectMeta :=
      { ing.ObjectMeta with Finalizers := RemoveString ing.ObjectMeta.Finalizers finalizerKey }
    match PatchIngressObjectMetadata storeErr ing updatedObjectMeta with
    | (Except.error err, calls) =>
        (Except.error ("error patching Ingress " ++ ing.ObjectMeta.Namespace ++ "/" ++
          ing.ObjectMeta.Name ++ ": " ++ err), calls)
    | (Except.ok _, calls) => (Except.ok (), calls)
  else
    (Except.ok (), [])

/-- The patch types of `k8s.io/apimachinery/pkg/types`. -/
inductive PatchType where
  | JSONPatchType
  | MergePatchType
  | StrategicMergePatchType
  | ApplyPatchType
deriving DecidableEq, Inhabited

/-- One patch submission on the Service path: the two full snapshots whose
two-way merge diff forms the patch bytes, the patch type, and the
sub-resource arguments of the store call. -/
structure ServicePatchCall where
  old : Service
  new : Service
  patchType : PatchType
  subresources : List String
deriving DecidableEq, Inhabited

/-- `patchServiceFinalizer`: marshals the old and new Service snapshots,
computes a strategic two-way merge patch of the full objects (the JSON
encoding and diffing are external collaborators, modelled as total on these
in-memory values), and submits it with `types.StrategicMergePatchType` and
the sub-resource argument `"status"`.  The store error is returned as is. -/
def patchServiceFinalizer (storeErr : Option String) (oldSvc newSvc : Service) :
    Except String Unit × List ServicePatchCall :=
  let call : ServicePatchCall :=
    { old := oldSvc, new := newSvc,
      patchType := PatchType.StrategicMergePatchType, subresources := ["status"] }
  match storeErr with
  | some e => (Except.error e, [call])
  | none => (Except.ok (), [call])

/-- `EnsureServiceFinalizer` patches the service to add a finalizer. -/
def EnsureServiceFinalizer (service : Service) (key : String) (storeErr : Option String) :
    Except String Unit × List ServicePatchCall :=
  if HasGivenFinalizer service.ObjectMeta key then
    (Except.ok (), [])
  else
    let updated := { service with ObjectMeta :=
      { service.ObjectMeta with Finalizers := service.ObjectMeta.Finalizers ++ [key] } }
    patchServiceFinalizer storeErr service updated

/-- `EnsureDeleteServiceFinalizer` patches the service to remove a finalizer. -/
def EnsureDeleteServiceFinalizer (service : Service) (key : String) (storeErr : Option String) :
    Except String Unit × List ServicePatchCall :=
  if !HasGivenFinalizer service.ObjectMeta key then
    (Except.ok (), [])
  else
    let updated := { service with ObjectMeta :=
      { service.ObjectMeta with Finalizers := RemoveString service.ObjectMeta.Finalizers key } }
    patchServiceFinalizer storeErr service updated

/-- State of the store after the recorded Ingress-path writes are applied to a
resource (per the spec, applying a submitted patch to its old snapshot yields
its new snapshot; with no intervening external mutation a later read returns
that result). -/
def storeAfterIngress (ing : Ingress) (writes : List IngressPatchCall) : Ingress :=
  match writes with
  | [] => ing
  | call :: _ => { call.old with ObjectMeta := call.newMeta }

/-- State of the store after the recorded Service-path writes are applied to a
resource (same reading as `storeAfterIngress`). -/
def storeAfterService (svc : Service) (writes : List ServicePatchCall) : Service :=
  match writes with
  | [] => svc
  | call :: _ => call.new

/-! ### Helper lemmas shared by the claim theorems -/

theorem hasGiven_iff_mem (m : ObjectMeta) (key : String) :
    HasGivenFinalizer m key = true ↔ key ∈ m.Finalizers := by
  simp [HasGivenFinalizer, ContainsString]

theorem needToAdd_iff (m : ObjectMeta) (key : String) :
    needToAddFinalizer m key = true ↔ (m.DeletionTimestamp = none ∧ key ∉ m.Finalizers) := by
  simp [needToAddFinalizer, HasGivenFinalizer, ContainsString, Option.isNone_iff_eq_none]

theorem filter_ne_of_mem (l : List String) (key : String) (hk : key ∈ l) :
    l.filter (fun item => item ≠ key) ≠ l := by
  intro heq
  rw [← heq] at hk
  simp [List.mem_filter] at hk

theorem append_singleton_ne (l : List String) (key : String) : l ++ [key] ≠ l := by
  intro heq
  have hlen := congrArg List.length heq
  simp at hlen

theorem needToAdd_append_self (m : ObjectMeta) (key : String) :
    needToAddFinalizer { m with Finalizers := m.Finalizers ++ [key] } key = false := by
  simp [needToAddFinalizer, HasGivenFinalizer, ContainsString]

theorem hasGiven_append_self (m : ObjectMeta) (key : String) :
    HasGivenFinalizer { m with Finalizers := m.Finalizers ++ [key] } key = true := by
  simp [HasGivenFinalizer, ContainsString]

/-! ### Claim theorems -/

/-- C2: for every metadata `M` and token `T`, `HasGivenFinalizer M T` returns
true iff `T` occurs as an exact string element of `M.Finalizers`
(membership, hence independent of position). -/
theorem HasGivenFinalizer_iff_mem (m : ObjectMeta) (key : String) :
    HasGivenFinalizer m key = true ↔ key ∈ m.Finalizers :=
  hasGiven_iff_mem m key

/-- C3: for every metadata `M`, `IsDeletionCandidate M` equals the conjunction
of "the deletion timestamp is non-null" and `HasFinalizer M`, even though the
code computes it as a disjunction of two per-token checks. -/
theorem IsDeletionCandidate_eq_and (m : ObjectMeta) :
    IsDeletionCandidate m = (m.DeletionTimestamp.isSome && HasFinalizer m) := by
  cases hd : m.DeletionTimestamp <;>
    simp [IsDeletionCandidate, IsDeletionCandidateForGivenFinalizer, HasFinalizer, hd,
      Bool.and_or_distrib_left]

/-- C1: `EnsureFinalizer` submits exactly one patch — whose new metadata is the
input's metadata with the token appended to the finalizer list — iff the
resource's deletion timestamp is null and the token is not yet among its
finalizers; otherwise it performs zero store writes and returns a copy whose
metadata equals the input's. -/
theorem EnsureFinalizer_patch_iff (ing : Ingress) (storeErr : Option String) (key : String) :
    ((EnsureFinalizer ing storeErr key).2 =
        [{ old := ing,
           newMeta := { ing.ObjectMeta with
             Finalizers := ing.ObjectMeta.Finalizers ++ [key] } }] ↔
      (ing.ObjectMeta.DeletionTimestamp = none ∧ key ∉ ing.ObjectMeta.Finalizers)) ∧
    (¬ (ing.ObjectMeta.DeletionTimestamp = none ∧ key ∉ ing.ObjectMeta.Finalizers) →
      (EnsureFinalizer ing storeErr key).2 = [] ∧
      (EnsureFinalizer ing storeErr key).1 = Except.ok ing) := by
  by_cases h : needToAddFinalizer ing.ObjectMeta key = true
  · cases storeErr <;>
      simp [EnsureFinalizer, PatchIngressObjectMetadata, h, (needToAdd_iff _ _).mp h]
  · have h2 := (not_congr (needToAdd_iff ing.ObjectMeta key)).mp h
    cases storeErr <;>
      simp [EnsureFinalizer, PatchIngressObjectMetadata, h, h2]

/-- C1 witness: a terminating resource (deletion timestamp set) with empty
finalizers gives zero writes and an unchanged returned copy. -/
theorem EnsureFinalizer_patch_iff_witness :
    (EnsureFinalizer
        { ObjectMeta := { Namespace := "ns", Name := "ing", DeletionTimestamp := some 1,
                          Finalizers := [] } } none "F1").2 = [] ∧
    (EnsureFinalizer
        { ObjectMeta := { Namespace := "ns", Name := "ing", DeletionTimestamp := some 1,
                          Finalizers := [] } } none "F1").1 =
      Except.ok { ObjectMeta := { Namespace := "ns", Name := "ing",
                                  DeletionTimestamp := some 1, Finalizers := [] } } :=
  (EnsureFinalizer_patch_iff
      { ObjectMeta := { Namespace := "ns", Name := "ing", DeletionTimestamp := some 1,
                        Finalizers := [] } } none "F1").2 (by simp)

/-- C6: ensure-absent is a successful no-op with zero writes when the token is
absent; when the token is present it submits exactly one patch whose new
finalizer list keeps exactly the elements different from the token (every
occurrence of the token removed, every other element kept), on both the
Ingress path and the Service path. -/
theorem EnsureDelete_spec (ing : Ingress) (svc : Service) (storeErr : Option String)
    (key : String) :
    (key ∉ ing.ObjectMeta.Finalizers →
      EnsureDeleteFinalizer ing storeErr key = (Except.ok (), [])) ∧
    (key ∈ ing.ObjectMeta.Finalizers →
      (EnsureDeleteFinalizer ing storeErr key).2.length = 1 ∧
      ∀ call ∈ (EnsureDeleteFinalizer ing storeErr key).2,
        ∀ x, x ∈ call.newMeta.Finalizers ↔ (x ∈ ing.ObjectMeta.Finalizers ∧ x ≠ key)) ∧
    (key ∉ svc.ObjectMeta.Finalizers →
      EnsureDeleteServiceFinalizer svc key storeErr = (Except.ok (), [])) ∧
    (key ∈ svc.ObjectMeta.Finalizers →
      (EnsureDeleteServiceFinalizer svc key storeErr).2.length = 1 ∧
      ∀ call ∈ (EnsureDeleteServiceFinalizer svc key storeErr).2,
        ∀ x, x ∈ call.new.ObjectMeta.Finalizers ↔ (x ∈ svc.ObjectMeta.Finalizers ∧ x ≠ key)) := by
  refine ⟨fun hni => ?_, fun hyi => ?_, fun hns => ?_, fun hys => ?_⟩
  · have h : HasGivenFinalizer ing.ObjectMeta key = false := by
      simp [HasGivenFinalizer, ContainsString, hni]
    simp [EnsureDeleteFinalizer, h]
  · have h : HasGivenFinalizer ing.ObjectMeta key = true := (hasGiven_iff_mem _ _).mpr hyi
    cases storeErr <;>
      simp [EnsureDeleteFinalizer, PatchIngressObjectMetadata, h, RemoveString,
        List.mem_filter]
  · have h : HasGivenFinalizer svc.ObjectMeta key = false := by
      simp [HasGivenFinalizer, ContainsString, hns]
    simp [EnsureDeleteServiceFinalizer, h]
  · have h : HasGivenFinalizer svc.ObjectMeta key = true := (hasGiven_iff_mem _ _).mpr hys
    cases storeErr <;>
      simp [EnsureDeleteServiceFinalizer, patchServiceFinalizer, h, RemoveString,
        List.mem_filter]

/-- C6 witness: duplicated token `["F1", "F2", "F1"]` on both paths — one
patch each, and the new list keeps exactly `"F2"`. -/
theorem EnsureDelete_spec_witness :
    (EnsureDeleteFinalizer
        { ObjectMeta := { Namespace := "n", Name := "i", DeletionTimestamp := none,
                          Finalizers := ["F1", "F2", "F1"] } } none "F1").2.length = 1 ∧
    (EnsureDeleteServiceFinalizer
        { ObjectMeta := { Namespace := "n", Name := "s", DeletionTimestamp := none,
                          Finalizers := ["F1", "F2", "F1"] } } "F1" none).2.length = 1 := by
  have h := EnsureDelete_spec
    { ObjectMeta := { Namespace := "n", Name := "i", DeletionTimestamp := none,
                      Finalizers := ["F1", "F2", "F1"] } }
    { ObjectMeta := { Namespace := "n", Name := "s", DeletionTimestamp := none,
                      Finalizers := ["F1", "F2", "F1"] } } none "F1"
  exact ⟨(h.2.1 (by simp)).1, (h.2.2.2 (by simp)).1⟩

/-- C7: whenever `EnsureFinalizer` succeeds it returns the deep copy (the
input copy, with the token appended exactly when a write was submitted); it
succeeds whenever the store accepts; and when the patch submission fails it
returns an error wrapping the store error text together with the resource's
namespace and name. -/
theorem EnsureFinalizer_copy_and_wrapped_error (ing : Ingress) (storeErr : Option String)
    (key : String) :
    (∀ u, (EnsureFinalizer ing storeErr key).1 = Except.ok u →
      (((EnsureFinalizer ing storeErr key).2 = [] → u = ing) ∧
       ((EnsureFinalizer ing storeErr key).2 ≠ [] →
         u = { ing with ObjectMeta := { ing.ObjectMeta with
                 Finalizers := ing.ObjectMeta.Finalizers ++ [key] } }))) ∧
    (storeErr = none → ∃ u, (EnsureFinalizer ing storeErr key).1 = Except.ok u) ∧
    (∀ e, storeErr = some e → needToAddFinalizer ing.ObjectMeta key = true →
      (EnsureFinalizer ing storeErr key).1 =
        Except.error ("error patching Ingress " ++ ing.ObjectMeta.Namespace ++ "/" ++
          ing.ObjectMeta.Name ++ ": " ++ e)) := by
  by_cases h : needToAddFinalizer ing.ObjectMeta key = true <;>
    cases storeErr <;>
      simp [EnsureFinalizer, PatchIngressObjectMetadata, h]

/-- C7 witness: with a rejecting store and a resource that needs the token,
the returned error is the wrapped store error with namespace and name. -/
theorem EnsureFinalizer_copy_and_wrapped_error_witness :
    (EnsureFinalizer
        { ObjectMeta := { Namespace := "ns", Name := "ing", DeletionTimestamp := none,
                          Finalizers := [] } } (some "boom") "F1").1 =
      Except.error "error patching Ingress ns/ing: boom" := by
  have h := (EnsureFinalizer_copy_and_wrapped_error
      { ObjectMeta := { Namespace := "ns", Name := "ing", DeletionTimestamp := none,
                        Finalizers := [] } } (some "boom") "F1").2.2 "boom" rfl (by decide)
  simpa using h

/-- C9: every store write of the Service-path operations is a single
strategic-merge patch of the two full snapshots, submitted with the
`"status"` sub-resource argument; at most one write per call; the patch
always carries a metadata change (the finalizer lists of the two snapshots
differ), and the operations themselves return only an error value
(`Except String Unit`, no updated object). -/
theorem servicePatch_strategicMerge_status (svc : Service) (key : String)
    (storeErr : Option String) :
    ((EnsureServiceFinalizer svc key storeErr).2.length ≤ 1 ∧
     (EnsureDeleteServiceFinalizer svc key storeErr).2.length ≤ 1) ∧
    (∀ call ∈ (EnsureServiceFinalizer svc key storeErr).2,
       call.patchType = PatchType.StrategicMergePatchType ∧
       call.subresources = ["status"] ∧ call.old = svc ∧
       call.new.ObjectMeta.Finalizers ≠ call.old.ObjectMeta.Finalizers) ∧
    (∀ call ∈ (EnsureDeleteServiceFinalizer svc key storeErr).2,
       call.patchType = PatchType.StrategicMergePatchType ∧
       call.subresources = ["status"] ∧ call.old = svc ∧
       call.new.ObjectMeta.Finalizers ≠ call.old.ObjectMeta.Finalizers) := by
  by_cases h : HasGivenFinalizer svc.ObjectMeta key = true
  · have hk : key ∈ svc.ObjectMeta.Finalizers := (hasGiven_iff_mem _ _).mp h
    cases storeErr <;>
      simp [EnsureServiceFinalizer, EnsureDeleteServiceFinalizer, patchServiceFinalizer, h,
        RemoveString, hk]
  · have hne := append_singleton_ne svc.ObjectMeta.Finalizers key
    cases storeErr <;>
      simp [EnsureServiceFinalizer, EnsureDeleteServiceFinalizer, patchServiceFinalizer, h, hne]

/-- C9 witness: adding `"F1"` to a service without it submits exactly one
strategic-merge patch with the `"status"` sub-resource. -/
theorem servicePatch_strategicMerge_status_witness :
    ((EnsureServiceFinalizer
        { ObjectMeta := { Namespace := "n", Name := "s", DeletionTimestamp := none,
                          Finalizers := [] } } "F1" none).2.length ≤ 1) ∧
    ∀ call ∈ (EnsureServiceFinalizer
        { ObjectMeta := { Namespace := "n", Name := "s", DeletionTimestamp := none,
                          Finalizers := [] } } "F1" none).2,
      call.patchType = PatchType.StrategicMergePatchType ∧ call.subresources = ["status"] := by
  have h := servicePatch_strategicMerge_status
    { ObjectMeta := { Namespace := "n", Name := "s", DeletionTimestamp := none,
                      Finalizers := [] } } "F1" none
  exact ⟨h.1.1, fun call hc => ⟨(h.2.1 call hc).1, (h.2.1 call hc).2.1⟩⟩

/-- C10: `EnsureServiceFinalizer` does not consult the deletion timestamp —
on a terminating service (timestamp set) without the token it still appends
the token and submits the patch. -/
theorem EnsureServiceFinalizer_ignores_deletionTimestamp (svc : Service) (key : String)
    (storeErr : Option String) (hts : svc.ObjectMeta.DeletionTimestamp ≠ none)
    (hmem : key ∉ svc.ObjectMeta.Finalizers) :
    (EnsureServiceFinalizer svc key storeErr).2 =
      [{ old := svc,
         new := { svc with ObjectMeta := { svc.ObjectMeta with
                   Finalizers := svc.ObjectMeta.Finalizers ++ [key] } },
         patchType := PatchType.StrategicMergePatchType,
         subresources := ["status"] }] := by
  have h : HasGivenFinalizer svc.ObjectMeta key = false := by
    simp [HasGivenFinalizer, ContainsString, hmem]
  cases storeErr <;> simp [EnsureServiceFinalizer, patchServiceFinalizer, h]

/-- C10 witness: a service with `DeletionTimestamp = some 0` and
`Finalizers = ["A"]` still gets `"B"` appended via one patch. -/
theorem EnsureServiceFinalizer_ignores_deletionTimestamp_witness :
    (EnsureServiceFinalizer
        { ObjectMeta := { Namespace := "n", Name := "s", DeletionTimestamp := some 0,
                          Finalizers := ["A"] } } "B" none).2 =
      [{ old := { ObjectMeta := { Namespace := "n", Name := "s",
                                  DeletionTimestamp := some 0, Finalizers := ["A"] } },
         new := { ObjectMeta := { Namespace := "n", Name := "s",
                                  DeletionTimestamp := some 0, Finalizers := ["A", "B"] } },
         patchType := PatchType.StrategicMergePatchType,
         subresources := ["status"] }] := by
  have h := EnsureServiceFinalizer_ignores_deletionTimestamp
    { ObjectMeta := { Namespace := "n", Name := "s", DeletionTimestamp := some 0,
                      Finalizers := ["A"] } } "B" none (by simp) (by simp)
  simpa using h

/-- C4: ensure-present is idempotent on both paths.  Ingress path: if the
first call (with an accepting store) returns `u`, the second call on `u`
returns `u` again with zero writes, and the first call wrote at most once.
Service path: after the first call's write (if any) is applied to the store,
the second call issues zero writes, so the finalizer list after call 1 equals
the list after call 2 and the store receives at most one write total. -/
theorem ensurePresent_idempotent (ing : Ingress) (svc : Service) (key : String) :
    (∀ u, (EnsureFinalizer ing none key).1 = Except.ok u →
      (EnsureFinalizer u none key).1 = Except.ok u ∧
      (EnsureFinalizer u none key).2 = [] ∧
      (EnsureFinalizer ing none key).2.length ≤ 1) ∧
    ((EnsureServiceFinalizer
        (storeAfterService svc (EnsureServiceFinalizer svc key none).2) key none).2 = [] ∧
     (EnsureServiceFinalizer svc key none).2.length ≤ 1) := by
  constructor
  · intro u hu
    by_cases h : needToAddFinalizer ing.ObjectMeta key = true
    · have hu2 : u = { ing with ObjectMeta := { ing.ObjectMeta with
          Finalizers := ing.ObjectMeta.Finalizers ++ [key] } } := by
        simp [EnsureFinalizer, PatchIngressObjectMetadata, h] at hu
        exact hu.symm
      subst hu2
      simp [EnsureFinalizer, PatchIngressObjectMetadata, h, needToAdd_append_self]
    · have hu2 : u = ing := by
        simp [EnsureFinalizer, h] at hu
        exact hu.symm
      subst hu2
      simp [EnsureFinalizer, h]
  · by_cases h : HasGivenFinalizer svc.ObjectMeta key = true
    · simp [EnsureServiceFinalizer, h, storeAfterService]
    · have hnm : key ∉ svc.ObjectMeta.Finalizers := fun hk => h ((hasGiven_iff_mem _ _).mpr hk)
      simp [EnsureServiceFinalizer, patchServiceFinalizer, h, storeAfterService,
        HasGivenFinalizer, ContainsString, hnm]

/-- C4 witness: starting from empty finalizers, the first call writes once
and the second call on its result writes nothing and returns it unchanged. -/
theorem ensurePresent_idempotent_witness :
    (EnsureFinalizer
        { ObjectMeta := { Namespace := "n", Name := "i", DeletionTimestamp := none,
                          Finalizers := ["F1"] } } none "F1").1 =
      Except.ok { ObjectMeta := { Namespace := "n", Name := "i", DeletionTimestamp := none,
                                  Finalizers := ["F1"] } } ∧
    (EnsureFinalizer
        { ObjectMeta := { Namespace := "n", Name := "i", DeletionTimestamp := none,
                          Finalizers := ["F1"] } } none "F1").2 = [] ∧
    (EnsureFinalizer
        { ObjectMeta := { Namespace := "n", Name := "i", DeletionTimestamp := none,
                          Finalizers := [] } } none "F1").2.length ≤ 1 :=
  (ensurePresent_idempotent
      { ObjectMeta := { Namespace := "n", Name := "i", DeletionTimestamp := none,
                        Finalizers := [] } }
      { ObjectMeta := { Namespace := "n", Name := "s", DeletionTimestamp := none,
                        Finalizers := [] } } "F1").1
    { ObjectMeta := { Namespace := "n", Name := "i", DeletionTimestamp := none,
                      Finalizers := ["F1"] } } rfl

/-- Concrete resource used in the C5 counterexample: its finalizer list
already contains the token. -/
def cexIngress : Ingress :=
  { ObjectMeta := { Namespace := "ns", Name := "ing", DeletionTimestamp := none,
                    Finalizers := ["F1"] } }

/-- C5 counterexample: with original finalizer list `["F1"]` and token
`"F1"`, ensure-present is a no-op (it returns the unchanged copy) and
ensure-absent then removes the token, so the final finalizer list lacks
`"F1"` while the original contains it — the original list is not restored,
not even as a set. -/
theorem ensure_then_delete_not_set_preserving :
    (EnsureFinalizer cexIngress none "F1").1 = Except.ok cexIngress ∧
    "F1" ∈ cexIngress.ObjectMeta.Finalizers ∧
    "F1" ∉ (storeAfterIngress cexIngress
        (EnsureDeleteFinalizer cexIngress none "F1").2).ObjectMeta.Finalizers := by
  refine ⟨rfl, by decide, by decide⟩

/-- C5 amended: when the token is NOT already among the resource's
finalizers, ensure-present followed by ensure-absent with the same token
(accepting store, no intervening external mutation) restores the original
finalizer list exactly. -/
theorem ensure_then_delete_restores (ing : Ingress) (key : String)
    (hmem : key ∉ ing.ObjectMeta.Finalizers) :
    ∀ u, (EnsureFinalizer ing none key).1 = Except.ok u →
      (storeAfterIngress u (EnsureDeleteFinalizer u none key).2).ObjectMeta.Finalizers =
        ing.ObjectMeta.Finalizers := by
  intro u hu
  have hall : ∀ a ∈ ing.ObjectMeta.Finalizers, a ≠ key := fun a ha hak => hmem (hak ▸ ha)
  by_cases h : needToAddFinalizer ing.ObjectMeta key = true
  · have hu2 : u = { ing with ObjectMeta := { ing.ObjectMeta with
        Finalizers := ing.ObjectMeta.Finalizers ++ [key] } } := by
      simp [EnsureFinalizer, PatchIngressObjectMetadata, h] at hu
      exact hu.symm
    subst hu2
    simp [EnsureDeleteFinalizer, PatchIngressObjectMetadata, hasGiven_append_self,
      RemoveString, storeAfterIngress, List.filter_append]
    intro a ha
    exact hall a ha
  · have hu2 : u = ing := by
      simp [EnsureFinalizer, h] at hu
      exact hu.symm
    have h2 : HasGivenFinalizer ing.ObjectMeta key = false := by
      simp [HasGivenFinalizer, ContainsString, hmem]
    subst hu2
    simp [EnsureDeleteFinalizer, h2, storeAfterIngress]

/-- C5 witness: starting from empty finalizers, adding and then removing
`"F1"` ends with the original empty list. -/
theorem ensure_then_delete_restores_witness :
    (storeAfterIngress
        { ObjectMeta := { Namespace := "n", Name := "i", DeletionTimestamp := none,
                          Finalizers := ["F1"] } }
        (EnsureDeleteFinalizer
          { ObjectMeta := { Namespace := "n", Name := "i", DeletionTimestamp := none,
                            Finalizers := ["F1"] } } none "F1").2).ObjectMeta.Finalizers =
      [] :=
  ensure_then_delete_restores
    { ObjectMeta := { Namespace := "n", Name := "i", DeletionTimestamp := none,
                      Finalizers := [] } } "F1" (by simp)
    { ObjectMeta := { Namespace := "n", Name := "i", DeletionTimestamp := none,
                      Finalizers := ["F1"] } } rfl

/-!
### Heap model for the copy-before-modify discipline (claim C8)

The pure functions above use value semantics, which cannot distinguish
"mutated a deep copy" from "mutated the caller's object in place".  To settle
the aliasing question the heap effect of each mutation operation is modelled
explicitly: a heap is a list of `ObjectMeta` cells, the caller's resource
metadata lives in the cell at `p`, `DeepCopy` allocates a fresh cell holding
the same contents, and each Go field assignment is a write to the cell the
assigned expression points at (in the source, always the fresh copy). -/

/-- Heap effect of `EnsureFinalizer`: `updated := ing.DeepCopy()` allocates a
fresh cell; the conditional `append` writes only that fresh cell. -/
def EnsureFinalizerHeap (heap : List ObjectMeta) (ingPtr : Nat) (key : String) :
    List ObjectMeta :=
  let m := heap.getD ingPtr default
  let heap1 := heap ++ [m]
  let updatedPtr := heap.length
  if needToAddFinalizer m key then
    heap1.set updatedPtr { m with Finalizers := m.Finalizers ++ [key] }
  else
    heap1

/-- Heap effect of `EnsureDeleteFinalizer`: the copy
`updatedObjectMeta := ing.ObjectMeta.DeepCopy()` is allocated (and then
written) only inside the has-finalizer branch. -/
def EnsureDeleteFinalizerHeap (heap : List ObjectMeta) (ingPtr : Nat) (key : String) :
    List ObjectMeta :=
  let m := heap.getD ingPtr default
  if HasGivenFinalizer m key then
    (heap ++ [m]).set heap.length { m with Finalizers := RemoveString m.Finalizers key }
  else
    heap

/-- Heap effect of `EnsureServiceFinalizer`: early return when the token is
present; otherwise `service.DeepCopy()` allocates a fresh cell which the
`append` then overwrites. -/
def EnsureServiceFinalizerHeap (heap : List ObjectMeta) (svcPtr : Nat) (key : String) :
    List ObjectMeta :=
  let m := heap.getD svcPtr default
  if HasGivenFinalizer m key then
    heap
  else
    (heap ++ [m]).set heap.length { m with Finalizers := m.Finalizers ++ [key] }

/-- Heap effect of `EnsureDeleteServiceFinalizer`: early return when the token
is absent; otherwise `service.DeepCopy()` allocates a fresh cell which the
removal then overwrites. -/
def EnsureDeleteServiceFinalizerHeap (heap : List ObjectMeta) (svcPtr : Nat) (key : String) :
    List ObjectMeta :=
  let m := heap.getD svcPtr default
  if !HasGivenFinalizer m key then
    heap
  else
    (heap ++ [m]).set heap.length { m with Finalizers := RemoveString m.Finalizers key }

theorem set_fresh_preserves (heap : List ObjectMeta) (p : Nat) (w : ObjectMeta)
    (v : ObjectMeta) (hp : p < heap.length) :
    ((heap ++ [v]).set heap.length w)[p]? = heap[p]? := by
  rw [List.getElem?_set_ne (by omega)]
  exact List.getElem?_append_left hp

/-- C8: every mutation operation leaves the caller-supplied object's cell
untouched — after any of the four operations the metadata at the caller's
pointer (in particular its finalizer list) is what it was before the call;
only the freshly allocated deep copy is ever written. -/
theorem mutations_preserve_caller (heap : List ObjectMeta) (p : Nat) (key : String)
    (hp : p < heap.length) :
    (EnsureFinalizerHeap heap p key)[p]? = heap[p]? ∧
    (EnsureDeleteFinalizerHeap heap p key)[p]? = heap[p]? ∧
    (EnsureServiceFinalizerHeap heap p key)[p]? = heap[p]? ∧
    (EnsureDeleteServiceFinalizerHeap heap p key)[p]? = heap[p]? := by
  refine ⟨?_, ?_, ?_, ?_⟩ <;>
    simp only [EnsureFinalizerHeap, EnsureDeleteFinalizerHeap, EnsureServiceFinalizerHeap,
      EnsureDeleteServiceFinalizerHeap] <;>
    split <;>
    first
      | rfl
      | exact set_fresh_preserves heap p _ _ hp
      | exact List.getElem?_append_left hp

/-- C8 witness: a one-cell heap holding a resource with finalizers `["F1"]`;
all four operations leave cell 0 unchanged. -/
theorem mutations_preserve_caller_witness :
    (EnsureFinalizerHeap
        [{ Namespace := "n", Name := "r", DeletionTimestamp := none,
           Finalizers := ["F1"] }] 0 "F1")[0]? =
      some { Namespace := "n", Name := "r", DeletionTimestamp := none,
             Finalizers := ["F1"] } ∧
    (EnsureDeleteFinalizerHeap
        [{ Namespace := "n", Name := "r", DeletionTimestamp := none,
           Finalizers := ["F1"] }] 0 "F1")[0]? =
      some { Namespace := "n", Name := "r", DeletionTimestamp := none,
             Finalizers := ["F1"] } := by
  have h := mutations_preserve_caller
    [{ Namespace := "n", Name := "r", DeletionTimestamp := none, Finalizers := ["F1"] }]
    0 "F1" (by decide)
  exact ⟨h.1, h.2.1⟩

end IngressGCE
